import Mathlib

/-!
Verification of the `courier_caw` armoring library (`src/lib.rs`).

Modelling conventions:
* Rust `&str` / `String` values are modelled as `List Char` (`RStr`); Rust
  `str::len` becomes `List.length`, `split(' ')` becomes `splitSp`, and
  `Vec::join(" ")` becomes `joinSp`.
* The word catalog `DICTIONARY` (an external data asset, not part of the
  source tree) is a parameter `catalog : List RStr`.
* Machine integers (`u8`, `u16`, `u32`, `usize`, `u128`) are `Nat`; the only
  place a truncation happens in the source is `n as u16` inside
  `reverse_lookup`, which is modelled by `% 65536`.
* Fallible operations (slice indexing, `unwrap`, `assert!`) are modelled by
  `Option`; a Rust panic is `none`.
* The two `rand::thread_rng` draws of `don` (begin/end marker choice) and the
  per-fragment marker choice are modelled by explicit parameters `rb re : Nat`
  and `rf : Nat → Nat`; `SliceRandom::choose` on a list `l` with draw `r` is
  `l.get? (r % l.length)` (and `none` on an empty list, matching
  `choose → None → unwrap` panicking).
* The `Pcg64` generator seeded by `rand_seeder` from the formatted string and
  the Fisher–Yates `shuffle` are abstracted as a function
  `shuffle : RStr → List Nat` of the seed string: `from_seed` feeds it the
  string `format!("{}{}{}{}", seed, year, month, day)` and slices the result.
  That the shuffled list is a permutation of `0..DICTIONARY.len()` is carried
  as a hypothesis where needed.
-/

set_option maxRecDepth 1000000

namespace Caw

/-- Rust strings modelled as lists of characters. -/
abbrev RStr := List Char

/-- The mappings between 16-bit words and English words (`DictMappings`). -/
structure DictMappings where
  /-- The corresponding catalog indices for 16-bit words. -/
  words : List Nat
  /-- The indices for the beginning of a message. -/
  begin : List Nat
  /-- The indices for the end of a message. -/
  end_ : List Nat
  /-- The indices for the start of a message fragment. -/
  fragment : List Nat

/-- The RNG seed string `format!("{}{}{}{}", seed, date.year(), date.month(), date.day())`,
as a character list (decimal digits, no separators). -/
def seedString (seed year month day : Nat) : RStr :=
  Nat.toDigits 10 seed ++ Nat.toDigits 10 year ++ Nat.toDigits 10 month ++ Nat.toDigits 10 day

/-- The slicing step of `DictMappings::from_seed`: given the shuffled index list,
take `begin = indices[0..5]`, `end = indices[5..10]`, `fragment = indices[10..15]`,
`words = indices[15..16 + u16::MAX]`.  In Rust each slice panics when the list is
too short; the largest required bound is `16 + 65535 = 65551`, so the whole
construction succeeds exactly when `65551 ≤ indices.length`. -/
def sliceTable (indices : List Nat) : Option DictMappings :=
  if 15 + 65536 ≤ indices.length then
    some { begin := indices.take 5
         , end_ := (indices.drop 5).take 5
         , fragment := (indices.drop 10).take 5
         , words := (indices.drop 15).take 65536 }
  else none

/-- `DictMappings::from_seed`: seed the RNG with `seedString`, shuffle
`0..DICTIONARY.len()`, slice.  The seeded `Pcg64` plus `shuffle` is abstracted
as the deterministic function `shuffle` of the seed string. -/
def from_seed (shuffle : RStr → List Nat) (seed year month day : Nat) : Option DictMappings :=
  sliceTable (shuffle (seedString seed year month day))

/-- `DictMappings::reverse_lookup`: first position `n` in `words` holding `index`,
returned as `n as u16` (hence `% 65536`). -/
def DictMappings.reverse_lookup (dict : DictMappings) (index : Nat) : Option Nat :=
  (dict.words.findIdx? (fun v => v == index)).map (fun n => n % 65536)

/-- A table as produced by `from_seed` from some catalog: the four ranges are
consecutive slices of a single shuffled permutation of `0..catalog.length`,
and the catalog is large enough for the slicing to succeed. -/
def FromSeedTable (catalog : List RStr) (dict : DictMappings) : Prop :=
  65551 ≤ catalog.length ∧
  ∃ p : List Nat, p.Perm (List.range catalog.length) ∧
    dict.begin = p.take 5 ∧ dict.end_ = (p.drop 5).take 5 ∧
    dict.fragment = (p.drop 10).take 5 ∧ dict.words = (p.drop 15).take 65536

/-- `Option`-valued map over a list: `none` as soon as one element maps to
`none` (models a Rust iterator pipeline in which a step may panic). -/
def mapMo {α β : Type} (f : α → Option β) : List α → Option (List β)
  | [] => some []
  | a :: l =>
    match f a, mapMo f l with
    | some b, some bs => some (b :: bs)
    | _, _ => none

/-- `Vec<&str>::join(" ")` on character lists. -/
def joinSp : List RStr → RStr
  | [] => []
  | [w] => w
  | w :: ws => w ++ ' ' :: joinSp ws

/-- Rust `str::split(' ')` on character lists: splits at every single space,
yielding empty tokens between adjacent spaces and `[[]]` on the empty string. -/
def splitSp : RStr → List RStr
  | [] => [[]]
  | c :: rest =>
    if c = ' ' then [] :: splitSp rest
    else
      match splitSp rest with
      | [] => [[c]]
      | t :: ts => (c :: t) :: ts

/-- `data.par_chunks(2)` mapped to big-endian 16-bit values, the final odd byte
padded with a zero low byte (`pair.get(1).unwrap_or(&0)`). -/
def toWords : List Nat → List Nat
  | [] => []
  | [a] => [a * 256]
  | a :: b :: rest => (a * 256 + b) :: toWords rest

/-- `DICTIONARY[dict.words[w]]`: map a 16-bit value to its coded catalog word. -/
def wordFor (catalog : List RStr) (dict : DictMappings) (w : Nat) : Option RStr :=
  (dict.words.get? w).bind (fun idx => catalog.get? idx)

/-- `SliceRandom::choose` with an explicit random draw `r`. -/
def chooseIdx (l : List Nat) (r : Nat) : Option Nat := l.get? (r % l.length)

/-- `dict.fragment.iter().map(|v| DICTIONARY[*v].len()).max().unwrap_or(0)`:
the length of the longest fragment-marker word (0 for an empty range);
indexing the catalog can panic. -/
def fragLen (catalog : List RStr) (dict : DictMappings) : Option Nat :=
  (mapMo catalog.get? dict.fragment).map (fun ws => (ws.map List.length).foldr Nat.max 0)

/-- The split-position loop of `don`: walking the word list with a running
character count (one separator between adjacent words), pushing the current
index and resetting the count to the current word's length whenever
`count + fragment_len` would exceed the limit. -/
def splitsAux (flen limit : Nat) : List RStr → Nat → Nat → List Nat
  | [], _, _ => []
  | w :: rest, index, count =>
    let count1 := if count ≠ 0 then count + 1 else count
    let count2 := count1 + w.length
    if limit < count2 + flen then
      index :: splitsAux flen limit rest (index + 1) w.length
    else
      splitsAux flen limit rest (index + 1) count2

/-- `slice::par_windows(2)` on the split positions. -/
def windows2 : List Nat → List (Nat × Nat)
  | a :: b :: rest => (a, b) :: windows2 (b :: rest)
  | _ => []

/-- One message of `don`'s output: the word range `[start, stop)`, prefixed for
every message after the first by a randomly chosen fragment-marker word and the
catalog word encoding the message index, joined by single spaces. -/
def buildMessage (catalog : List RStr) (dict : DictMappings) (allWords : List RStr)
    (rf : Nat → Nat) (index start stop : Nat) : Option RStr :=
  if index = 0 then some (joinSp ((allWords.drop start).take (stop - start)))
  else
    (chooseIdx dict.fragment (rf index)).bind (fun fi =>
      (catalog.get? fi).bind (fun fw =>
        (dict.words.get? index).bind (fun si =>
          (catalog.get? si).map (fun sw =>
            joinSp (fw :: sw :: (allWords.drop start).take (stop - start))))))

/-- `don`: armor a byte buffer.  `rb`, `re` are the random draws for the begin
and end marker, `rf` the per-message fragment-marker draw. -/
def don (catalog : List RStr) (dict : DictMappings) (data : List Nat)
    (character_limit : Nat) (rb re : Nat) (rf : Nat → Nat) : Option (List RStr) :=
  (mapMo (wordFor catalog dict) (toWords data)).bind (fun dataWords =>
    (chooseIdx dict.begin rb).bind (fun bi =>
      (chooseIdx dict.end_ re).bind (fun ei =>
        (catalog.get? bi).bind (fun bw =>
          (catalog.get? ei).bind (fun ew =>
            (fragLen catalog dict).bind (fun flen =>
              mapMo (fun p =>
                  buildMessage catalog dict (bw :: (dataWords ++ [ew])) rf p.1 p.2.1 p.2.2)
                (windows2 (0 :: (splitsAux flen character_limit (bw :: (dataWords ++ [ew])) 0 0
                  ++ [(bw :: (dataWords ++ [ew])).length]))).enum))))))

/-- The token-to-catalog-index pass of `doff`: split a message on single
spaces, map each token to the first catalog index holding it, silently
dropping unmatched tokens. -/
def tokenIndices (catalog : List RStr) (m : RStr) : List Nat :=
  (splitSp m).filterMap (fun tok => catalog.findIdx? (fun w => w == tok))

/-- The classification pass of `doff` for one message: a begin-marker head gets
sequence number 0 and payload `v[1..]`; otherwise the first index must be a
fragment marker (`assert!`, panic as `none`), the sequence number is the
reverse lookup of `v[1]` (`unwrap`, panic as `none`) and the payload is
`v[2..]`.  An empty index list panics on `v[0]`. -/
def parseMessage (catalog : List RStr) (dict : DictMappings) (m : RStr) :
    Option (Nat × List Nat) :=
  match tokenIndices catalog m with
  | [] => none
  | h :: t =>
    if dict.begin.contains h then some (0, t)
    else if dict.fragment.contains h then
      match t with
      | [] => none
      | s :: rest => (dict.reverse_lookup s).map (fun idx => (idx, rest))
    else none

/-- All messages classified (any single panic aborts `doff`). -/
def parseMessages (catalog : List RStr) (dict : DictMappings) (messages : List RStr) :
    Option (List (Nat × List Nat)) :=
  mapMo (parseMessage catalog dict) messages

/-- `numbered_data.sort_by(|(a, _), (b, _)| a.cmp(b))`: a stable sort by
sequence number. -/
def sortPairs (l : List (Nat × List Nat)) : List (Nat × List Nat) :=
  l.insertionSort (fun a b => a.1 ≤ b.1)

/-- The flattening pass of `doff` on one payload: reverse-look-up each index
(dropping misses), then split each 16-bit value into high and low byte
(`(v >> 8) as u8` and `((v << 8) >> 8) as u8`, i.e. `v / 256` and `v % 256`). -/
def payloadBytes (dict : DictMappings) (payload : List Nat) : List Nat :=
  (payload.filterMap dict.reverse_lookup).flatMap (fun v => [v / 256, v % 256])

/-- `doff`: take the armor off a collection of messages. -/
def doff (catalog : List RStr) (messages : List RStr) (dict : DictMappings) :
    Option (List Nat) :=
  (parseMessages catalog dict messages).map (fun numbered =>
    (sortPairs numbered).flatMap (fun p => payloadBytes dict p.2))

/-! Concrete instances used to exercise the definitions: a catalog of 65551
distinct short space-free words (`catEntry i` spells `i + 1` in decimal with
letter digits) and the table sliced from the identity permutation. -/

/-- Little-endian decimal digits of `n` as letters (`'a'` = 0 … `'j'` = 9),
with explicit fuel so that the recursion is structural. -/
def decChars : Nat → Nat → List Char
  | 0, _ => []
  | fuel + 1, n => if n = 0 then [] else Char.ofNat (97 + n % 10) :: decChars fuel (n / 10)

/-- Catalog entry `i`: the digits of `i + 1` (nonempty, distinct, no spaces). -/
def catEntry (i : Nat) : RStr := decChars 5 (i + 1)

/-- A concrete catalog of exactly `15 + 65536` distinct words. -/
def idCatalog : List RStr := (List.range' 0 65551).map catEntry

/-- The identity permutation of the catalog indices (one possible shuffle). -/
def idPerm : List Nat := List.range' 0 65551

/-- The table `from_seed` builds when the shuffle is the identity. -/
def idDict : DictMappings :=
  { begin := idPerm.take 5
  , end_ := (idPerm.drop 5).take 5
  , fragment := (idPerm.drop 10).take 5
  , words := (idPerm.drop 15).take 65536 }

/-- The even-length padding `don` applies: odd-length input gets a zero byte. -/
def padEven (data : List Nat) : List Nat :=
  if data.length % 2 = 0 then data else data ++ [0]

/-- The malformed-message condition exactly as the specification states it
(modelled from the spec's words, for comparison with the code): the first
recognized token is neither a begin nor a fragment marker, or a
fragment-started message lacks a second recognized token that
reverse-looks-up to a sequence number. -/
def specMalformed (catalog : List RStr) (dict : DictMappings) (m : RStr) : Bool :=
  match tokenIndices catalog m with
  | [] => false
  | h :: t =>
    (!(dict.begin.contains h) && !(dict.fragment.contains h))
    || (dict.fragment.contains h &&
        (match t with
         | [] => true
         | s :: _ => (dict.reverse_lookup s).isNone))

/-- The malformed-message condition the code actually implements (panics in
`doff`): additionally, a message in which no token at all is recognized
panics on `v[0]`. -/
def codeMalformed (catalog : List RStr) (dict : DictMappings) (m : RStr) : Bool :=
  match tokenIndices catalog m with
  | [] => true
  | h :: t =>
    if dict.begin.contains h then false
    else if dict.fragment.contains h then
      match t with
      | [] => true
      | s :: _ => (dict.reverse_lookup s).isNone
    else true

/-- Output of `don` on the concrete failing input of the message-length bound:
catalog word lengths 1/2/2/2/1, `character_limit = 9`. -/
def c2msgs : List RStr :=
  (don idCatalog idDict [0, 0, 0, 1, 0, 2] 9 0 0 (fun _ => 0)).getD []

/-- Output of `don` on the too-small-limit input (`character_limit = 0`). -/
def c3msgs : List RStr :=
  (don idCatalog idDict [] 0 0 0 (fun _ => 0)).getD []

/-- Output of `don` on the even-length round-trip demo input. -/
def c1msgs : List RStr :=
  (don idCatalog idDict [1, 2, 0, 1, 0, 2] 12 0 0 (fun _ => 0)).getD []

/-- Output of `don` on the odd-length round-trip demo input. -/
def c5msgs : List RStr :=
  (don idCatalog idDict [1, 2, 3] 50 0 0 (fun _ => 0)).getD []

/-! General lemmas about `mapMo`. -/

theorem mapMo_eq_some_iff {α β : Type} (f : α → Option β) :
    ∀ (l : List α) (ys : List β),
      mapMo f l = some ys ↔ List.Forall₂ (fun a b => f a = some b) l ys := by
  intro l
  induction l with
  | nil =>
    intro ys
    constructor
    · intro h
      cases h
      exact List.Forall₂.nil
    · intro h
      cases h
      rfl
  | cons a l ih =>
    intro ys
    constructor
    · intro h
      unfold mapMo at h
      cases hfa : f a with
      | none => rw [hfa] at h; cases h
      | some b =>
        rw [hfa] at h
        cases hml : mapMo f l with
        | none => rw [hml] at h; cases h
        | some bs =>
          rw [hml] at h
          cases h
          exact List.Forall₂.cons hfa ((ih bs).1 hml)
    · intro h
      cases h with
      | cons hab htail =>
        unfold mapMo
        rw [hab, (ih _).2 htail]

theorem mapMo_cons {α β : Type} (f : α → Option β) (a : α) (l : List α) :
    mapMo f (a :: l) =
      match f a, mapMo f l with
      | some b, some bs => some (b :: bs)
      | _, _ => none := rfl

theorem mapMo_eq_none_iff {α β : Type} (f : α → Option β) :
    ∀ (l : List α), mapMo f l = none ↔ ∃ a ∈ l, f a = none := by
  intro l
  induction l with
  | nil => simp [mapMo]
  | cons a l ih =>
    constructor
    · intro h
      rw [mapMo_cons] at h
      cases hfa : f a with
      | none => exact ⟨a, List.mem_cons_self a l, hfa⟩
      | some b =>
        rw [hfa] at h
        cases hml : mapMo f l with
        | none =>
          rcases ih.1 hml with ⟨x, hx, hfx⟩
          exact ⟨x, List.mem_cons_of_mem _ hx, hfx⟩
        | some bs => rw [hml] at h; cases h
    · rintro ⟨x, hx, hfx⟩
      rw [mapMo_cons]
      rcases List.mem_cons.1 hx with rfl | hx
      · rw [hfx]
      · rw [ih.2 ⟨x, hx, hfx⟩]
        cases f a <;> rfl

theorem mapMo_perm {α β : Type} (f : α → Option β) {l l' : List α} (hp : l.Perm l') :
    ∀ {ys : List β}, mapMo f l = some ys →
      ∃ ys', mapMo f l' = some ys' ∧ ys.Perm ys' := by
  induction hp with
  | nil =>
    intro ys h
    exact ⟨ys, h, List.Perm.refl ys⟩
  | @cons a l₁ l₂ hp ih =>
    intro ys h
    rw [mapMo_cons] at h
    rw [mapMo_cons]
    cases hfa : f a with
    | none => rw [hfa] at h; cases h
    | some b =>
      rw [hfa] at h
      cases hml : mapMo f l₁ with
      | none => rw [hml] at h; cases h
      | some bs =>
        rw [hml] at h
        cases h
        rcases ih hml with ⟨ys2, hys2, hperm⟩
        rw [hys2]
        exact ⟨b :: ys2, rfl, List.Perm.cons b hperm⟩
  | @swap x y l =>
    intro ys h
    rw [mapMo_cons, mapMo_cons] at h
    rw [mapMo_cons, mapMo_cons]
    cases hfy : f y with
    | none =>
      rw [hfy] at h
      cases hfx : f x with
      | none => cases h
      | some vx =>
        rw [hfx] at h
        cases hml : mapMo f l with
        | none => rw [hml] at h; cases h
        | some bs => rw [hml] at h; cases h
    | some vy =>
      rw [hfy] at h
      cases hfx : f x with
      | none =>
        rw [hfx] at h
        cases hml : mapMo f l with
        | none => rw [hml] at h; cases h
        | some bs => rw [hml] at h; cases h
      | some vx =>
        rw [hfx] at h
        cases hml : mapMo f l with
        | none => rw [hml] at h; cases h
        | some bs =>
          rw [hml] at h
          cases h
          exact ⟨vx :: vy :: bs, rfl, List.Perm.swap vx vy bs⟩
  | trans hp1 hp2 ih1 ih2 =>
    intro ys h
    rcases ih1 h with ⟨ys1, hys1, hperm1⟩
    rcases ih2 hys1 with ⟨ys2, hys2, hperm2⟩
    exact ⟨ys2, hys2, hperm1.trans hperm2⟩

theorem filterMap_of_forall₂ {α β : Type} (f : α → Option β) :
    ∀ {l : List α} {ys : List β},
      List.Forall₂ (fun a b => f a = some b) l ys → l.filterMap f = ys := by
  intro l
  induction l with
  | nil =>
    intro ys h
    cases h
    rfl
  | cons a l ih =>
    intro ys h
    cases h with
    | cons hab htail =>
      rw [List.filterMap_cons, hab, ih htail]

/-! Lemmas about `splitSp` and `joinSp`. -/

theorem splitSp_no_space : ∀ (w : RStr), ' ' ∉ w → splitSp w = [w]
  | [], _ => rfl
  | c :: rest, h => by
    have hc : ¬ c = ' ' := fun e => h (by rw [e]; exact List.mem_cons_self _ _)
    have hr := splitSp_no_space rest (fun m => h (List.mem_cons_of_mem _ m))
    simp [splitSp, hc, hr]

theorem splitSp_append_cons : ∀ (w t : RStr), ' ' ∉ w →
    splitSp (w ++ ' ' :: t) = w :: splitSp t
  | [], t, _ => by simp [splitSp]
  | c :: w', t, h => by
    have hc : ¬ c = ' ' := fun e => h (by rw [e]; exact List.mem_cons_self _ _)
    have hr := splitSp_append_cons w' t (fun m => h (List.mem_cons_of_mem _ m))
    simp [splitSp, hc, hr]

theorem splitSp_joinSp : ∀ (ws : List RStr), ws ≠ [] → (∀ w ∈ ws, ' ' ∉ w) →
    splitSp (joinSp ws) = ws
  | [], h, _ => absurd rfl h
  | [w], _, h => by
    simpa [joinSp] using splitSp_no_space w (h w (by simp))
  | w :: w' :: ws, _, h => by
    have hr := splitSp_joinSp (w' :: ws) (by simp)
      (fun x hx => h x (List.mem_cons_of_mem _ hx))
    have hj : joinSp (w :: w' :: ws) = w ++ ' ' :: joinSp (w' :: ws) := by
      simp [joinSp]
    rw [hj, splitSp_append_cons w _ (h w (by simp)), hr]

/-! Lemmas about first-match search (`findIdx?`). -/

theorem findIdx?_of_get? {α : Type} [BEq α] [LawfulBEq α] :
    ∀ (c : List α) (i : Nat) (w : α), c.Nodup → c.get? i = some w →
      c.findIdx? (fun x => x == w) = some i := by
  intro c
  induction c with
  | nil => intro i w _ h; cases h
  | cons x c' ih =>
    intro i w hnd h
    cases i with
    | zero =>
      cases h
      simp [List.findIdx?_cons]
    | succ i =>
      have hw : w ∈ c' := List.get?_mem h
      have hx : ¬ x = w := fun e => (List.nodup_cons.1 hnd).1 (e ▸ hw)
      rw [List.findIdx?_cons, List.findIdx?_succ]
      simp only [beq_iff_eq, hx, if_false]
      rw [ih i w (List.nodup_cons.1 hnd).2 h]
      rfl

theorem findIdx?_eq_none_of_not_mem {α : Type} [BEq α] [LawfulBEq α]
    (c : List α) (w : α) (h : w ∉ c) : c.findIdx? (fun x => x == w) = none := by
  rw [List.findIdx?_eq_none_iff]
  intro x hx
  simp only [beq_eq_false_iff_ne, ne_eq]
  exact fun e => h (e ▸ hx)

theorem reverse_lookup_of_get? (dict : DictMappings) (n i : Nat)
    (hnd : dict.words.Nodup) (hlen : dict.words.length ≤ 65536)
    (h : dict.words.get? n = some i) : dict.reverse_lookup i = some n := by
  unfold DictMappings.reverse_lookup
  rw [findIdx?_of_get? dict.words n i hnd h]
  have hn : n < dict.words.length := by
    by_contra hc
    rw [List.get?_eq_none.2 (Nat.le_of_not_lt hc)] at h
    cases h
  simp [Nat.mod_eq_of_lt (Nat.lt_of_lt_of_le hn hlen)]

theorem reverse_lookup_eq_none (dict : DictMappings) (i : Nat)
    (h : i ∉ dict.words) : dict.reverse_lookup i = none := by
  unfold DictMappings.reverse_lookup
  rw [findIdx?_eq_none_of_not_mem dict.words i h]
  rfl

/-! Consequences of the `from_seed` construction. -/

theorem disjoint_slices (p : List Nat) (hnd : p.Nodup) (a m b k : Nat)
    (hab : a + m ≤ b) :
    List.Disjoint ((p.drop a).take m) ((p.drop b).take k) := by
  intro x hx1 hx2
  have hd : List.Disjoint ((p.drop a).take m) ((p.drop a).drop m) :=
    List.disjoint_take_drop (List.Nodup.sublist (List.drop_sublist a p) hnd) (Nat.le_refl m)
  have h1 : x ∈ p.drop b := List.take_subset _ _ hx2
  have hb : p.drop b = ((p.drop a).drop m).drop (b - (a + m)) := by
    rw [List.drop_drop, List.drop_drop]
    congr 1
    omega
  have h2 : x ∈ (p.drop a).drop m := by
    rw [hb] at h1
    exact List.drop_subset _ _ h1
  exact hd hx1 h2

theorem fst_spec (catalog : List RStr) (dict : DictMappings)
    (h : FromSeedTable catalog dict) :
    dict.begin.length = 5 ∧ dict.end_.length = 5 ∧ dict.fragment.length = 5 ∧
    dict.words.length = 65536 ∧ dict.words.Nodup ∧
    dict.begin.Disjoint dict.end_ ∧ dict.begin.Disjoint dict.fragment ∧
    dict.begin.Disjoint dict.words ∧ dict.end_.Disjoint dict.fragment ∧
    dict.end_.Disjoint dict.words ∧ dict.fragment.Disjoint dict.words ∧
    (∀ i ∈ dict.begin, i < catalog.length) ∧ (∀ i ∈ dict.end_, i < catalog.length) ∧
    (∀ i ∈ dict.fragment, i < catalog.length) ∧ (∀ i ∈ dict.words, i < catalog.length) := by
  obtain ⟨hlen, p, hp, hb, he, hf, hw⟩ := h
  have hplen : p.length = catalog.length := by
    rw [hp.length_eq, List.length_range]
  have hpnodup : p.Nodup := hp.nodup_iff.2 (List.nodup_range _)
  have hmem : ∀ x ∈ p, x < catalog.length := by
    intro x hx
    exact List.mem_range.1 (hp.mem_iff.1 hx)
  have hb0 : dict.begin = (p.drop 0).take 5 := by rw [hb]; rfl
  have hsub : ∀ a m : Nat, ∀ x ∈ (p.drop a).take m, x ∈ p := by
    intro a m x hx
    exact List.drop_subset _ _ (List.take_subset _ _ hx)
  refine ⟨?_, ?_, ?_, ?_, ?_, ?_, ?_, ?_, ?_, ?_, ?_, ?_, ?_, ?_, ?_⟩
  · rw [hb, List.length_take]
    omega
  · rw [he, List.length_take, List.length_drop]
    omega
  · rw [hf, List.length_take, List.length_drop]
    omega
  · rw [hw, List.length_take, List.length_drop]
    omega
  · rw [hw]
    exact List.Nodup.sublist
      ((List.take_sublist _ _).trans (List.drop_sublist _ _)) hpnodup
  · rw [hb0, he]
    exact disjoint_slices p hpnodup 0 5 5 5 (by omega)
  · rw [hb0, hf]
    exact disjoint_slices p hpnodup 0 5 10 5 (by omega)
  · rw [hb0, hw]
    exact disjoint_slices p hpnodup 0 5 15 65536 (by omega)
  · rw [he, hf]
    exact disjoint_slices p hpnodup 5 5 10 5 (by omega)
  · rw [he, hw]
    exact disjoint_slices p hpnodup 5 5 15 65536 (by omega)
  · rw [hf, hw]
    exact disjoint_slices p hpnodup 10 5 15 65536 (by omega)
  · rw [hb0]
    intro i hi
    exact hmem i (hsub 0 5 i hi)
  · rw [he]
    intro i hi
    exact hmem i (hsub 5 5 i hi)
  · rw [hf]
    intro i hi
    exact hmem i (hsub 10 5 i hi)
  · rw [hw]
    intro i hi
    exact hmem i (hsub 15 65536 i hi)

/-! Lemmas about the split-position loop and the windows. -/

theorem splitsAux_mem_bounds (flen limit : Nat) :
    ∀ (ws : List RStr) (i c : Nat), ∀ x ∈ splitsAux flen limit ws i c,
      i ≤ x ∧ x < i + ws.length := by
  intro ws
  induction ws with
  | nil =>
    intro i c x hx
    simp [splitsAux] at hx
  | cons w rest ih =>
    intro i c x hx
    simp only [splitsAux] at hx
    by_cases hcond : limit < (if c ≠ 0 then c + 1 else c) + w.length + flen
    · rw [if_pos hcond] at hx
      rcases List.mem_cons.1 hx with rfl | hx
      · refine ⟨Nat.le_refl _, ?_⟩
        simp only [List.length_cons]
        omega
      · rcases ih (i + 1) w.length x hx with ⟨h1, h2⟩
        refine ⟨by omega, ?_⟩
        simp only [List.length_cons]
        omega
    · rw [if_neg hcond] at hx
      rcases ih (i + 1) _ x hx with ⟨h1, h2⟩
      refine ⟨by omega, ?_⟩
      simp only [List.length_cons]
      omega

theorem splitsAux_pairwise (flen limit : Nat) :
    ∀ (ws : List RStr) (i c : Nat),
      List.Pairwise (· < ·) (splitsAux flen limit ws i c) := by
  intro ws
  induction ws with
  | nil =>
    intro i c
    simp [splitsAux]
  | cons w rest ih =>
    intro i c
    simp only [splitsAux]
    by_cases hcond : limit < (if c ≠ 0 then c + 1 else c) + w.length + flen
    · rw [if_pos hcond]
      refine List.pairwise_cons.2 ⟨?_, ih (i + 1) w.length⟩
      intro x hx
      have := (splitsAux_mem_bounds flen limit rest (i + 1) w.length x hx).1
      omega
    · rw [if_neg hcond]
      exact ih (i + 1) _

theorem windows2_join {α : Type} (l : List α) :
    ∀ (S : List Nat) (a L : Nat),
      List.Pairwise (· ≤ ·) (a :: (S ++ [L])) →
      ((windows2 (a :: (S ++ [L]))).map (fun p => (l.drop p.1).take (p.2 - p.1))).flatten
        = (l.drop a).take (L - a) := by
  intro S
  induction S with
  | nil =>
    intro a L _
    simp [windows2]
  | cons b S ih =>
    intro a L hp
    have hab : a ≤ b := (List.pairwise_cons.1 hp).1 b (by simp)
    have htail : List.Pairwise (· ≤ ·) (b :: (S ++ [L])) := (List.pairwise_cons.1 hp).2
    have hbL : b ≤ L := (List.pairwise_cons.1 htail).1 L (by simp)
    have hstep : windows2 (a :: ((b :: S) ++ [L]))
        = (a, b) :: windows2 (b :: (S ++ [L])) := rfl
    rw [hstep, List.map_cons, List.flatten_cons]
    rw [ih b L htail]
    have hdrop : l.drop b = (l.drop a).drop (b - a) := by
      rw [List.drop_drop]
      congr 1
      omega
    rw [hdrop]
    rw [show L - a = (b - a) + (L - b) by omega, List.take_add]

/-! Lemmas about the stable sort by sequence number. -/

instance : IsTotal (Nat × List Nat) (fun a b => a.1 ≤ b.1) :=
  ⟨fun a b => Nat.le_total a.1 b.1⟩

instance : IsTrans (Nat × List Nat) (fun a b => a.1 ≤ b.1) :=
  ⟨fun _ _ _ h1 h2 => Nat.le_trans h1 h2⟩

instance : IsAntisymm (Nat × List Nat) (fun a b => a.1 < b.1) :=
  ⟨fun _ _ h1 h2 => absurd (Nat.lt_trans h1 h2) (Nat.lt_irrefl _)⟩

theorem pairwise_key_lt_of_le (l : List (Nat × List Nat))
    (hle : List.Pairwise (fun a b => a.1 ≤ b.1) l)
    (hnd : (l.map Prod.fst).Nodup) :
    List.Pairwise (fun a b => a.1 < b.1) l := by
  induction l with
  | nil => exact List.Pairwise.nil
  | cons a l ih =>
    rcases List.pairwise_cons.1 hle with ⟨ha, hl⟩
    rw [List.map_cons, List.nodup_cons] at hnd
    refine List.pairwise_cons.2 ⟨?_, ih hl hnd.2⟩
    intro b hb
    have hne : a.1 ≠ b.1 := fun e => hnd.1 (e ▸ List.mem_map_of_mem Prod.fst hb)
    exact Nat.lt_of_le_of_ne (ha b hb) hne

theorem keys_nodup_of_pairwise_lt (l : List (Nat × List Nat))
    (h : List.Pairwise (fun a b => a.1 < b.1) l) : (l.map Prod.fst).Nodup :=
  List.pairwise_map.2 (h.imp (fun hab => Nat.ne_of_lt hab))

theorem sortPairs_perm (l : List (Nat × List Nat)) : (sortPairs l).Perm l :=
  List.perm_insertionSort _ l

theorem sortPairs_sorted (l : List (Nat × List Nat)) :
    List.Pairwise (fun a b => a.1 ≤ b.1) (sortPairs l) :=
  List.sorted_insertionSort _ l

theorem sortPairs_keys_nodup (l : List (Nat × List Nat))
    (hnd : (l.map Prod.fst).Nodup) : ((sortPairs l).map Prod.fst).Nodup := by
  have hp : ((sortPairs l).map Prod.fst).Perm (l.map Prod.fst) :=
    (sortPairs_perm l).map Prod.fst
  exact hp.nodup_iff.2 hnd

theorem sortPairs_eq_self (l : List (Nat × List Nat))
    (h : List.Pairwise (fun a b => a.1 < b.1) l) : sortPairs l = l :=
  List.eq_of_perm_of_sorted (sortPairs_perm l)
    (pairwise_key_lt_of_le _ (sortPairs_sorted l)
      (sortPairs_keys_nodup l (keys_nodup_of_pairwise_lt l h)))
    h

theorem sortPairs_congr (l l' : List (Nat × List Nat)) (hp : l.Perm l')
    (hnd : (l.map Prod.fst).Nodup) : sortPairs l = sortPairs l' := by
  have hnd' : (l'.map Prod.fst).Nodup := ((hp.map Prod.fst).nodup_iff).1 hnd
  refine List.eq_of_perm_of_sorted
    ((sortPairs_perm l).trans (hp.trans (sortPairs_perm l').symm))
    (pairwise_key_lt_of_le _ (sortPairs_sorted l) (sortPairs_keys_nodup l hnd))
    (pairwise_key_lt_of_le _ (sortPairs_sorted l') (sortPairs_keys_nodup l' hnd'))

/-! Byte-pair arithmetic. -/

theorem padEven_cons₂ (a b : Nat) (rest : List Nat) :
    padEven (a :: b :: rest) = a :: b :: padEven rest := by
  have hl : (a :: b :: rest).length % 2 = rest.length % 2 := by
    simp only [List.length_cons]
    omega
  unfold padEven
  rw [hl]
  by_cases h : rest.length % 2 = 0
  · rw [if_pos h, if_pos h]
  · rw [if_neg h, if_neg h]
    rfl

theorem toWords_flat : ∀ (data : List Nat), (∀ b ∈ data, b < 256) →
    (toWords data).flatMap (fun v => [v / 256, v % 256]) = padEven data
  | [], _ => by simp [toWords, padEven]
  | [a], h => by
    have ha : a < 256 := h a (by simp)
    have h1 : a * 256 / 256 = a := by omega
    have h2 : a * 256 % 256 = 0 := by omega
    simp [toWords, padEven, h1, h2]
  | a :: b :: rest, h => by
    have hr := toWords_flat rest (fun x hx => h x (by simp [hx]))
    have ha : a < 256 := h a (by simp)
    have hb : b < 256 := h b (by simp)
    have h1 : (a * 256 + b) / 256 = a := by omega
    have h2 : (a * 256 + b) % 256 = b := by omega
    rw [padEven_cons₂]
    show ((a * 256 + b) :: toWords rest).flatMap (fun v => [v / 256, v % 256])
      = a :: b :: padEven rest
    rw [List.flatMap_cons, h1, h2, hr]
    rfl

/-! Relating coded index lists to coded word lists. -/

theorem forall₂_mem_right {α β : Type} {R : α → β → Prop} :
    ∀ {l : List α} {ys : List β}, List.Forall₂ R l ys → ∀ b ∈ ys, ∃ a ∈ l, R a b := by
  intro l ys h
  induction h with
  | nil => intro b hb; cases hb
  | cons hab htail ih =>
    intro b hb
    rcases List.mem_cons.1 hb with rfl | hb
    · exact ⟨_, List.mem_cons_self _ _, hab⟩
    · rcases ih b hb with ⟨a, ha, hr⟩
      exact ⟨a, List.mem_cons_of_mem _ ha, hr⟩

theorem forall₂_exists_middle {α β γ : Type} {R : α → γ → Prop} {Q : γ → β → Prop} :
    ∀ {l : List α} {ys : List β},
      List.Forall₂ (fun a b => ∃ c, R a c ∧ Q c b) l ys →
      ∃ cs, List.Forall₂ R l cs ∧ List.Forall₂ Q cs ys := by
  intro l ys h
  induction h with
  | nil => exact ⟨[], List.Forall₂.nil, List.Forall₂.nil⟩
  | cons hab htail ih =>
    rcases hab with ⟨c, hr, hq⟩
    rcases ih with ⟨cs, h1, h2⟩
    exact ⟨c :: cs, List.Forall₂.cons hr h1, List.Forall₂.cons hq h2⟩

theorem filterMap_find_of_codes (catalog : List RStr) (hnd : catalog.Nodup) :
    ∀ {is : List Nat} {ws : List RStr},
      List.Forall₂ (fun i w => catalog.get? i = some w) is ws →
      ws.filterMap (fun tok => catalog.findIdx? (fun x => x == tok)) = is := by
  intro is ws h
  induction h with
  | nil => rfl
  | cons hab htail ih =>
    rw [List.filterMap_cons, findIdx?_of_get? catalog _ _ hnd hab, ih]

theorem codes_no_space (catalog : List RStr) (hsp : ∀ w ∈ catalog, ' ' ∉ w) :
    ∀ {is : List Nat} {ws : List RStr},
      List.Forall₂ (fun i w => catalog.get? i = some w) is ws →
      ∀ w ∈ ws, ' ' ∉ w := by
  intro is ws h w hw
  rcases forall₂_mem_right h w hw with ⟨i, _, hr⟩
  exact hsp w (List.get?_mem hr)

theorem tokenIndices_of_codes (catalog : List RStr) (hnd : catalog.Nodup)
    (hsp : ∀ w ∈ catalog, ' ' ∉ w) {is : List Nat} {ws : List RStr}
    (h : List.Forall₂ (fun i w => catalog.get? i = some w) is ws) (hne : ws ≠ []) :
    tokenIndices catalog (joinSp ws) = is := by
  unfold tokenIndices
  rw [splitSp_joinSp ws hne (codes_no_space catalog hsp h)]
  exact filterMap_find_of_codes catalog hnd h

theorem forall₂_append {α β : Type} {R : α → β → Prop} :
    ∀ {l₁ u₁ : List α} {l₂ u₂ : List β}, List.Forall₂ R l₁ l₂ → List.Forall₂ R u₁ u₂ →
      List.Forall₂ R (l₁ ++ u₁) (l₂ ++ u₂) := by
  intro l₁ u₁ l₂ u₂ h hu
  induction h with
  | nil => exact hu
  | cons hab htail ih => exact List.Forall₂.cons hab ih

theorem wordFor_eq_some (catalog : List RStr) (dict : DictMappings) (v : Nat) (w : RStr) :
    wordFor catalog dict v = some w ↔
      ∃ i, dict.words.get? v = some i ∧ catalog.get? i = some w := by
  unfold wordFor
  cases h : dict.words.get? v with
  | none => simp
  | some idx => simp

theorem splitsAux_cons_zero (flen limit : Nat) (w : RStr) (rest : List RStr)
    (hno : ¬ limit < w.length + flen) :
    splitsAux flen limit (w :: rest) 0 0 = splitsAux flen limit rest 1 w.length := by
  simp only [splitsAux, ne_eq, not_true_eq_false, if_false, Nat.zero_add]
  exact if_neg hno

theorem payloadBytes_append (dict : DictMappings) (l₁ l₂ : List Nat) :
    payloadBytes dict (l₁ ++ l₂) = payloadBytes dict l₁ ++ payloadBytes dict l₂ := by
  unfold payloadBytes
  rw [List.filterMap_append, List.flatMap_append]

theorem payloadBytes_of_word_codes (dict : DictMappings) :
    ∀ {vs is : List Nat},
      List.Forall₂ (fun v i => dict.words.get? v = some i) vs is →
      dict.words.Nodup → dict.words.length ≤ 65536 →
      is.filterMap dict.reverse_lookup = vs := by
  intro vs is h hnd hlen
  refine filterMap_of_forall₂ dict.reverse_lookup (List.Forall₂.flip ?_)
  exact h.imp (fun v i hvi => reverse_lookup_of_get? dict v i hnd hlen hvi)

theorem pairwise_fst_lt_enumFrom {α : Type} (k : Nat) (l : List α) :
    List.Pairwise (fun p q => p.1 < q.1) (List.enumFrom k l) := by
  have h : List.Pairwise (· < ·) ((List.enumFrom k l).map Prod.fst) := by
    rw [List.enumFrom_map_fst]
    exact List.pairwise_lt_range' k l.length 1
  exact List.pairwise_map.1 h

theorem fst_ge_of_mem_enumFrom {α : Type} {k : Nat} {l : List α} {p : Nat × α}
    (h : p ∈ List.enumFrom k l) : k ≤ p.1 := by
  have h1 : p.1 ∈ (List.enumFrom k l).map Prod.fst := List.mem_map_of_mem Prod.fst h
  rw [List.enumFrom_map_fst] at h1
  rcases List.mem_range'.1 h1 with ⟨i, _, hi⟩
  omega

theorem contains_true_of_mem {l : List Nat} {a : Nat} (h : a ∈ l) :
    l.contains a = true := List.elem_iff.2 h

theorem contains_false_of_not_mem {l : List Nat} {a : Nat} (h : a ∉ l) :
    ¬ l.contains a = true := fun hc => h (List.elem_iff.1 hc)

/-! Classifying the messages `don` builds. -/

theorem parseMessage_begin_case (catalog : List RStr) (dict : DictMappings)
    (m : RStr) (h : Nat) (t : List Nat)
    (htok : tokenIndices catalog m = h :: t) (hb : dict.begin.contains h = true) :
    parseMessage catalog dict m = some (0, t) := by
  simp only [parseMessage, htok]
  rw [if_pos hb]

theorem parseMessage_frag_case (catalog : List RStr) (dict : DictMappings)
    (m : RStr) (h s : Nat) (rest : List Nat)
    (htok : tokenIndices catalog m = h :: s :: rest)
    (hnb : ¬ dict.begin.contains h = true) (hf : dict.fragment.contains h = true) :
    parseMessage catalog dict m = (dict.reverse_lookup s).map (fun idx => (idx, rest)) := by
  simp only [parseMessage, htok]
  rw [if_neg hnb, if_pos hf]

theorem buildMessage_head_eq (catalog : List RStr) (dict : DictMappings)
    (allWords : List RStr) (rf : Nat → Nat) (s t : Nat) :
    buildMessage catalog dict allWords rf 0 s t
      = some (joinSp ((allWords.drop s).take (t - s))) := by
  unfold buildMessage
  rw [if_pos rfl]

theorem buildMessage_cont_eq_some (catalog : List RStr) (dict : DictMappings)
    (allWords : List RStr) (rf : Nat → Nat) (k s t : Nat) (m : RStr) (hk : ¬ k = 0) :
    buildMessage catalog dict allWords rf k s t = some m ↔
      ∃ fi fw si sw, chooseIdx dict.fragment (rf k) = some fi ∧
        catalog.get? fi = some fw ∧ dict.words.get? k = some si ∧
        catalog.get? si = some sw ∧
        m = joinSp (fw :: sw :: (allWords.drop s).take (t - s)) := by
  unfold buildMessage
  rw [if_neg hk]
  constructor
  · intro h
    cases hfi : chooseIdx dict.fragment (rf k) with
    | none => rw [hfi, Option.none_bind] at h; cases h
    | some fi0 =>
      rw [hfi, Option.some_bind] at h
      cases hfw : catalog.get? fi0 with
      | none => rw [hfw, Option.none_bind] at h; cases h
      | some fw0 =>
        rw [hfw, Option.some_bind] at h
        cases hsi : dict.words.get? k with
        | none => rw [hsi, Option.none_bind] at h; cases h
        | some si0 =>
          rw [hsi, Option.some_bind] at h
          cases hsw : catalog.get? si0 with
          | none => rw [hsw] at h; cases h
          | some sw0 =>
            rw [hsw, Option.map_some'] at h
            cases h
            exact ⟨fi0, fw0, si0, sw0, rfl, hfw, rfl, hsw, rfl⟩
  · rintro ⟨fi, fw, si, sw, hfi, hfw, hsi, hsw, rfl⟩
    rw [hfi, Option.some_bind, hfw, Option.some_bind, hsi, Option.some_bind, hsw,
      Option.map_some']

theorem parse_head (catalog : List RStr) (dict : DictMappings)
    (bw : RStr) (restW : List RStr) (bi : Nat) (restIdx : List Nat)
    (hnd : catalog.Nodup) (hsp : ∀ w ∈ catalog, ' ' ∉ w)
    (hfa : List.Forall₂ (fun i w => catalog.get? i = some w) (bi :: restIdx) (bw :: restW))
    (hbi : bi ∈ dict.begin) (s : Nat) (hs : 1 ≤ s) :
    parseMessage catalog dict (joinSp ((bw :: restW).take s)) =
      some (0, ((bi :: restIdx).take s).drop 1) := by
  have htake : (bw :: restW).take s = bw :: restW.take (s - 1) := List.take_cons hs
  have htakeI : (bi :: restIdx).take s = bi :: restIdx.take (s - 1) := List.take_cons hs
  have hfa2 : List.Forall₂ (fun i w => catalog.get? i = some w)
      ((bi :: restIdx).take s) ((bw :: restW).take s) := List.forall₂_take s hfa
  have htok : tokenIndices catalog (joinSp ((bw :: restW).take s)) = (bi :: restIdx).take s :=
    tokenIndices_of_codes catalog hnd hsp hfa2 (by rw [htake]; exact List.cons_ne_nil _ _)
  rw [htakeI] at htok
  rw [parseMessage_begin_case catalog dict _ bi (restIdx.take (s - 1)) htok
    (contains_true_of_mem hbi)]
  rw [htakeI, List.drop_succ_cons, List.drop_zero]

theorem cont_parse (catalog : List RStr) (dict : DictMappings) (allWords : List RStr)
    (allIdx : List Nat) (rf : Nat → Nat)
    (hnd : catalog.Nodup) (hsp : ∀ w ∈ catalog, ' ' ∉ w)
    (hfa : List.Forall₂ (fun i w => catalog.get? i = some w) allIdx allWords)
    (hwnd : dict.words.Nodup) (hwlen : dict.words.length = 65536)
    (hdisjbf : dict.begin.Disjoint dict.fragment) :
    ∀ (W : List (Nat × Nat)) (k : Nat) (msgs : List RStr),
      1 ≤ k →
      mapMo (fun p => buildMessage catalog dict allWords rf p.1 p.2.1 p.2.2)
        (List.enumFrom k W) = some msgs →
      parseMessages catalog dict msgs =
        some ((List.enumFrom k W).map
          (fun p => (p.1, (allIdx.drop p.2.1).take (p.2.2 - p.2.1)))) := by
  intro W
  induction W with
  | nil =>
    intro k msgs hk h
    simp only [List.enumFrom] at h
    cases h
    simp [parseMessages, mapMo, List.enumFrom]
  | cons st W ih =>
    intro k msgs hk h
    obtain ⟨s, t⟩ := st
    rw [List.enumFrom_cons, mapMo_cons] at h
    simp only [] at h
    cases hb : buildMessage catalog dict allWords rf k s t with
    | none => rw [hb] at h; cases h
    | some m =>
      rw [hb] at h
      cases hrest : mapMo (fun p => buildMessage catalog dict allWords rf p.1 p.2.1 p.2.2)
          (List.enumFrom (k + 1) W) with
      | none => rw [hrest] at h; cases h
      | some ms =>
        rw [hrest] at h
        cases h
        have hk0 : ¬ k = 0 := by omega
        obtain ⟨fi, fw, si, sw, hfi, hfw, hsi, hsw, rfl⟩ :=
          (buildMessage_cont_eq_some catalog dict allWords rf k s t m hk0).1 hb
        have hcore : List.Forall₂ (fun i w => catalog.get? i = some w)
            ((allIdx.drop s).take (t - s)) ((allWords.drop s).take (t - s)) :=
          List.forall₂_take _ (List.forall₂_drop _ hfa)
        have hfull : List.Forall₂ (fun i w => catalog.get? i = some w)
            (fi :: si :: (allIdx.drop s).take (t - s))
            (fw :: sw :: (allWords.drop s).take (t - s)) :=
          List.Forall₂.cons hfw (List.Forall₂.cons hsw hcore)
        have htok := tokenIndices_of_codes catalog hnd hsp hfull
          (List.cons_ne_nil _ _)
        have hfimem : fi ∈ dict.fragment := by
          unfold chooseIdx at hfi
          exact List.get?_mem hfi
        have hpm : parseMessage catalog dict
            (joinSp (fw :: sw :: (allWords.drop s).take (t - s)))
            = some (k, (allIdx.drop s).take (t - s)) := by
          rw [parseMessage_frag_case catalog dict _ fi si _ htok
            (contains_false_of_not_mem (fun hmem => hdisjbf hmem hfimem))
            (contains_true_of_mem hfimem)]
          rw [reverse_lookup_of_get? dict k si hwnd (by omega) hsi]
          rfl
        have ihres := ih (k + 1) ms (by omega) hrest
        unfold parseMessages at ihres ⊢
        rw [mapMo_cons, hpm, ihres]
        rw [List.enumFrom_cons, List.map_cons]

theorem mapMo_singleton {α β : Type} (f : α → Option β) (a : α) :
    mapMo f [a] = (f a).map (fun b => [b]) := by
  cases h : f a with
  | none => rw [mapMo_cons, h]; rfl
  | some b => rw [mapMo_cons, h]; rfl

theorem payloadBytes_flatten (dict : DictMappings) :
    ∀ (ls : List (List Nat)), ls.flatMap (payloadBytes dict) = payloadBytes dict ls.flatten := by
  intro ls
  induction ls with
  | nil => rfl
  | cons l ls ih =>
    rw [List.flatMap_cons, List.flatten_cons, payloadBytes_append, ih]

theorem payload_final (dict : DictMappings) (dataIdx : List Nat) (ei : Nat) (data : List Nat)
    (hvw : List.Forall₂ (fun v i => dict.words.get? v = some i) (toWords data) dataIdx)
    (hwnd : dict.words.Nodup) (hwl : dict.words.length = 65536)
    (hei : ei ∉ dict.words) (hbytes : ∀ b ∈ data, b < 256) :
    payloadBytes dict (dataIdx ++ [ei]) = padEven data := by
  rw [payloadBytes_append]
  have h2 : payloadBytes dict [ei] = [] := by
    unfold payloadBytes
    rw [List.filterMap_cons, reverse_lookup_eq_none dict ei hei]
    rfl
  rw [h2, List.append_nil]
  unfold payloadBytes
  rw [payloadBytes_of_word_codes dict hvw hwnd (by omega)]
  exact toWords_flat data hbytes

/-- The core round-trip fact: whenever `don` succeeds on a well-formed table
with a character limit that can hold any single word plus the longest fragment
marker, `doff` on its output recovers the input padded to even length. -/
theorem doff_don (catalog : List RStr) (dict : DictMappings) (data : List Nat)
    (limit rb re : Nat) (rf : Nat → Nat) (msgs : List RStr)
    (hnd : catalog.Nodup) (hsp : ∀ w ∈ catalog, ' ' ∉ w)
    (ht : FromSeedTable catalog dict)
    (hbytes : ∀ b ∈ data, b < 256)
    (hlim : ∀ fl, fragLen catalog dict = some fl → ∀ w ∈ catalog, w.length + fl ≤ limit)
    (hdon : don catalog dict data limit rb re rf = some msgs) :
    doff catalog msgs dict = some (padEven data) := by
  obtain ⟨hbl, hel, hfl5, hwl, hwnd, hdbe, hdbf, hdbw, hdef, hdew, hdfw, hmb, hme, hmf, hmwlt⟩ :=
    fst_spec catalog dict ht
  unfold don at hdon
  rcases Option.bind_eq_some.1 hdon with ⟨dataWords, hmw, h1⟩
  rcases Option.bind_eq_some.1 h1 with ⟨bi, hbi, h2⟩
  rcases Option.bind_eq_some.1 h2 with ⟨ei, hei, h3⟩
  rcases Option.bind_eq_some.1 h3 with ⟨bw, hbw, h4⟩
  rcases Option.bind_eq_some.1 h4 with ⟨ew, hew, h5⟩
  rcases Option.bind_eq_some.1 h5 with ⟨flen, hfl, hmsgs⟩
  have hforall : List.Forall₂ (fun v w => wordFor catalog dict v = some w)
      (toWords data) dataWords :=
    (mapMo_eq_some_iff (wordFor catalog dict) (toWords data) dataWords).1 hmw
  obtain ⟨dataIdx, hvw, hdw⟩ := forall₂_exists_middle
    (hforall.imp (fun v w hw => (wordFor_eq_some catalog dict v w).1 hw))
  have hbim : bi ∈ dict.begin := by
    unfold chooseIdx at hbi
    exact List.get?_mem hbi
  have heim : ei ∈ dict.end_ := by
    unfold chooseIdx at hei
    exact List.get?_mem hei
  have heiw : ei ∉ dict.words := fun hmem => hdew heim hmem
  have hfa : List.Forall₂ (fun i w => catalog.get? i = some w)
      (bi :: (dataIdx ++ [ei])) (bw :: (dataWords ++ [ew])) :=
    List.Forall₂.cons hbw (forall₂_append hdw (List.Forall₂.cons hew List.Forall₂.nil))
  have hlen_eq : (bi :: (dataIdx ++ [ei])).length = (bw :: (dataWords ++ [ew])).length :=
    hfa.length_eq
  have hno : ¬ limit < bw.length + flen := by
    have := hlim flen hfl bw (List.get?_mem hbw)
    omega
  rw [splitsAux_cons_zero flen limit bw (dataWords ++ [ew]) hno] at hmsgs
  have hL1 : 1 ≤ (bw :: (dataWords ++ [ew])).length := by
    simp only [List.length_cons]
    omega
  cases hT : splitsAux flen limit (dataWords ++ [ew]) 1 bw.length with
  | nil =>
    rw [hT] at hmsgs
    have hw2 : (windows2 (0 :: (([] : List Nat) ++ [(bw :: (dataWords ++ [ew])).length]))).enum
        = [((0 : Nat), ((0 : Nat), (bw :: (dataWords ++ [ew])).length))] := rfl
    rw [hw2, mapMo_singleton] at hmsgs
    simp only [] at hmsgs
    rw [buildMessage_head_eq, Option.map_some'] at hmsgs
    cases hmsgs
    have hparse := parse_head catalog dict bw (dataWords ++ [ew]) bi (dataIdx ++ [ei])
      hnd hsp hfa hbim ((bw :: (dataWords ++ [ew])).length) hL1
    have hps : parseMessages catalog dict
        [joinSp (((bw :: (dataWords ++ [ew])).drop 0).take
          ((bw :: (dataWords ++ [ew])).length - 0))]
        = some [((0 : Nat), (((bi :: (dataIdx ++ [ei])).take
            ((bw :: (dataWords ++ [ew])).length)).drop 1))] := by
      unfold parseMessages
      rw [mapMo_singleton]
      rw [List.drop_zero, Nat.sub_zero]
      rw [hparse]
      rfl
    unfold doff
    rw [hps, Option.map_some']
    rw [sortPairs_eq_self _ (List.pairwise_singleton _ _)]
    simp only [List.flatMap_cons, List.flatMap_nil, List.append_nil]
    rw [List.take_of_length_le (le_of_eq hlen_eq), List.drop_succ_cons, List.drop_zero]
    rw [payload_final dict dataIdx ei data hvw hwnd hwl heiw hbytes]
  | cons t T' =>
    rw [hT] at hmsgs
    have ht1 : 1 ≤ t ∧ t < 1 + (dataWords ++ [ew]).length := by
      have := splitsAux_mem_bounds flen limit (dataWords ++ [ew]) 1 bw.length t
      rw [hT] at this
      exact this (List.mem_cons_self _ _)
    have hTpw : List.Pairwise (· < ·) (t :: T') := by
      have := splitsAux_pairwise flen limit (dataWords ++ [ew]) 1 bw.length
      rw [hT] at this
      exact this
    have hTbounds : ∀ x ∈ t :: T', 1 ≤ x ∧ x < (bw :: (dataWords ++ [ew])).length := by
      intro x hx
      have := splitsAux_mem_bounds flen limit (dataWords ++ [ew]) 1 bw.length x
      rw [hT] at this
      have h := this hx
      simp only [List.length_cons]
      omega
    have hUpw : List.Pairwise (· ≤ ·) (t :: (T' ++ [(bw :: (dataWords ++ [ew])).length])) := by
      have hTle : List.Pairwise (· ≤ ·) (t :: T') := hTpw.imp (fun h => Nat.le_of_lt h)
      rw [List.pairwise_cons] at hTle ⊢
      constructor
      · intro x hx
        rcases List.mem_append.1 hx with hx | hx
        · exact hTle.1 x hx
        · rcases List.mem_singleton.1 hx with rfl
          exact Nat.le_of_lt (hTbounds t (List.mem_cons_self _ _)).2
      · rw [List.pairwise_append]
        refine ⟨hTle.2, List.pairwise_singleton _ _, ?_⟩
        intro x hx y hy
        rcases List.mem_singleton.1 hy with rfl
        exact Nat.le_of_lt (hTbounds x (List.mem_cons_of_mem _ hx)).2
    have hwin : windows2 (0 :: ((t :: T') ++ [(bw :: (dataWords ++ [ew])).length]))
        = (0, t) :: windows2 (t :: (T' ++ [(bw :: (dataWords ++ [ew])).length])) := rfl
    rw [hwin, List.enum_cons, mapMo_cons] at hmsgs
    simp only [] at hmsgs
    rw [buildMessage_head_eq] at hmsgs
    cases hrest : mapMo
        (fun p => buildMessage catalog dict (bw :: (dataWords ++ [ew])) rf p.1 p.2.1 p.2.2)
        (List.enumFrom 1 (windows2 (t :: (T' ++ [(bw :: (dataWords ++ [ew])).length])))) with
    | none => rw [hrest] at hmsgs; cases hmsgs
    | some restMsgs =>
      rw [hrest] at hmsgs
      cases hmsgs
      have hparse0 := parse_head catalog dict bw (dataWords ++ [ew]) bi (dataIdx ++ [ei])
        hnd hsp hfa hbim t ht1.1
      have hparseRest := cont_parse catalog dict (bw :: (dataWords ++ [ew]))
        (bi :: (dataIdx ++ [ei])) rf hnd hsp hfa hwnd hwl hdbf
        (windows2 (t :: (T' ++ [(bw :: (dataWords ++ [ew])).length]))) 1 restMsgs
        (Nat.le_refl 1) hrest
      have hps : parseMessages catalog dict
          (joinSp (((bw :: (dataWords ++ [ew])).drop 0).take (t - 0)) :: restMsgs)
          = some (((0 : Nat), (((bi :: (dataIdx ++ [ei])).take t).drop 1)) ::
              (List.enumFrom 1
                (windows2 (t :: (T' ++ [(bw :: (dataWords ++ [ew])).length])))).map
                (fun p => (p.1, (((bi :: (dataIdx ++ [ei])).drop p.2.1).take
                  (p.2.2 - p.2.1))))) := by
        unfold parseMessages
        rw [mapMo_cons]
        rw [List.drop_zero, Nat.sub_zero]
        rw [hparse0]
        unfold parseMessages at hparseRest
        rw [hparseRest]
      unfold doff
      rw [hps, Option.map_some']
      have hkeys : List.Pairwise (fun a b => a.1 < b.1)
          (((0 : Nat), (((bi :: (dataIdx ++ [ei])).take t).drop 1)) ::
            (List.enumFrom 1
              (windows2 (t :: (T' ++ [(bw :: (dataWords ++ [ew])).length])))).map
              (fun p => (p.1, (((bi :: (dataIdx ++ [ei])).drop p.2.1).take
                (p.2.2 - p.2.1))))) := by
        rw [List.pairwise_cons]
        constructor
        · intro q hq
          rcases List.mem_map.1 hq with ⟨p, hp, rfl⟩
          have := fst_ge_of_mem_enumFrom hp
          omega
        · exact List.pairwise_map.2
            ((pairwise_fst_lt_enumFrom 1 _).imp (fun h => h))
      rw [sortPairs_eq_self _ hkeys]
      rw [List.flatMap_cons]
      have hflat : ((List.enumFrom 1
            (windows2 (t :: (T' ++ [(bw :: (dataWords ++ [ew])).length])))).map
            (fun p => (p.1, (((bi :: (dataIdx ++ [ei])).drop p.2.1).take
              (p.2.2 - p.2.1))))).flatMap (fun p => payloadBytes dict p.2)
          = payloadBytes dict ((bi :: (dataIdx ++ [ei])).drop t) := by
        rw [List.flatMap_map]
        conv_lhs =>
          rw [show (List.enumFrom 1
              (windows2 (t :: (T' ++ [(bw :: (dataWords ++ [ew])).length]))))
              = (List.enumFrom 1
                (windows2 (t :: (T' ++ [(bw :: (dataWords ++ [ew])).length])))) from rfl]
        rw [show (fun (a : Nat × (Nat × Nat)) => payloadBytes dict
            (((bi :: (dataIdx ++ [ei])).drop a.2.1).take (a.2.2 - a.2.1)))
            = (fun (a : Nat × (Nat × Nat)) => (fun (q : Nat × Nat) => payloadBytes dict
              (((bi :: (dataIdx ++ [ei])).drop q.1).take (q.2 - q.1))) a.2) from rfl]
        rw [← List.flatMap_map (Prod.snd)
          (fun (q : Nat × Nat) => payloadBytes dict
            (((bi :: (dataIdx ++ [ei])).drop q.1).take (q.2 - q.1)))
          (List.enumFrom 1 (windows2 (t :: (T' ++ [(bw :: (dataWords ++ [ew])).length]))))]
        rw [List.enumFrom_map_snd]
        rw [← List.flatMap_map
          (fun (q : Nat × Nat) => ((bi :: (dataIdx ++ [ei])).drop q.1).take (q.2 - q.1))
          (payloadBytes dict)
          (windows2 (t :: (T' ++ [(bw :: (dataWords ++ [ew])).length])))]
        rw [payloadBytes_flatten]
        rw [windows2_join (bi :: (dataIdx ++ [ei])) T' t
          ((bw :: (dataWords ++ [ew])).length) hUpw]
        congr 1
        apply List.take_of_length_le
        rw [List.length_drop, hlen_eq]
      rw [hflat]
      rw [← payloadBytes_append]
      have hjoin : ((bi :: (dataIdx ++ [ei])).take t).drop 1
            ++ (bi :: (dataIdx ++ [ei])).drop t = dataIdx ++ [ei] := by
        rw [List.take_cons ht1.1, List.drop_succ_cons, List.drop_zero]
        rw [show t = (t - 1) + 1 from by omega, List.drop_succ_cons]
        rw [show (t - 1) + 1 - 1 = t - 1 from by omega]
        exact List.take_append_drop _ _
      rw [hjoin]
      rw [payload_final dict dataIdx ei data hvw hwnd hwl heiw hbytes]

/-! Facts about the concrete catalog and identity table. -/

theorem decDigit_ne_space : ∀ d < 10, ¬ (Char.ofNat (97 + d) = ' ') := by decide

theorem decDigit_inj : ∀ d < 10, ∀ e < 10,
    Char.ofNat (97 + d) = Char.ofNat (97 + e) → d = e := by decide

theorem decChars_inj : ∀ (fuel n m : Nat), n < 10 ^ fuel → m < 10 ^ fuel →
    decChars fuel n = decChars fuel m → n = m := by
  intro fuel
  induction fuel with
  | zero =>
    intro n m hn hm _
    simp only [pow_zero] at hn hm
    omega
  | succ fuel ih =>
    intro n m hn hm h
    by_cases hn0 : n = 0
    · by_cases hm0 : m = 0
      · rw [hn0, hm0]
      · rw [hn0] at h
        simp [decChars, hm0] at h
    · by_cases hm0 : m = 0
      · rw [hm0] at h
        simp [decChars, hn0] at h
      · rw [decChars, if_neg hn0, decChars, if_neg hm0] at h
        injection h with h1 h2
        have hd : n % 10 = m % 10 :=
          decDigit_inj _ (Nat.mod_lt _ (by omega)) _ (Nat.mod_lt _ (by omega)) h1
        have hps : (10 : Nat) ^ (fuel + 1) = 10 ^ fuel * 10 := Nat.pow_succ 10 fuel
        have hq : n / 10 = m / 10 := by
          refine ih (n / 10) (m / 10) (by omega) (by omega) h2
        omega

theorem decChars_no_space : ∀ (fuel n : Nat), ' ' ∉ decChars fuel n := by
  intro fuel
  induction fuel with
  | zero =>
    intro n h
    cases h
  | succ fuel ih =>
    intro n h
    by_cases hn : n = 0
    · rw [decChars, if_pos hn] at h
      cases h
    · rw [decChars, if_neg hn] at h
      rcases List.mem_cons.1 h with he | he
      · exact decDigit_ne_space (n % 10) (Nat.mod_lt _ (by omega)) he.symm
      · exact ih (n / 10) he

theorem decChars_length_le : ∀ (fuel n : Nat), (decChars fuel n).length ≤ fuel := by
  intro fuel
  induction fuel with
  | zero =>
    intro n
    exact Nat.le_refl 0
  | succ fuel ih =>
    intro n
    by_cases hn : n = 0
    · rw [decChars, if_pos hn]
      exact Nat.zero_le _
    · rw [decChars, if_neg hn]
      simp only [List.length_cons]
      exact Nat.succ_le_succ (ih (n / 10))

theorem mem_range65551_lt (x : Nat) (hx : x ∈ List.range' 0 65551) : x < 65551 := by
  rcases List.mem_range'.1 hx with ⟨i, hi, rfl⟩
  omega

theorem idCatalog_length : idCatalog.length = 65551 := by
  unfold idCatalog
  rw [List.length_map, List.length_range']

theorem idCatalog_nodup : idCatalog.Nodup := by
  unfold idCatalog
  refine List.Nodup.map_on ?_ (List.nodup_range' _ _)
  intro x hx y hy h
  have hx5 : x < 65551 := mem_range65551_lt x hx
  have hy5 : y < 65551 := mem_range65551_lt y hy
  have h10 : (10 : Nat) ^ 5 = 100000 := by norm_num
  have := decChars_inj 5 (x + 1) (y + 1) (by omega) (by omega) h
  omega

theorem idCatalog_no_space : ∀ w ∈ idCatalog, ' ' ∉ w := by
  intro w hw
  unfold idCatalog at hw
  rcases List.mem_map.1 hw with ⟨i, _, rfl⟩
  exact decChars_no_space 5 (i + 1)

theorem idTable_fst : FromSeedTable idCatalog idDict := by
  refine ⟨by rw [idCatalog_length], ⟨idPerm, ?_, rfl, rfl, rfl, rfl⟩⟩
  rw [idCatalog_length, List.range_eq_range']
  exact List.Perm.refl _

theorem idCatalog_limit (limit : Nat) (h : 7 ≤ limit) :
    ∀ fl, fragLen idCatalog idDict = some fl →
      ∀ w ∈ idCatalog, w.length + fl ≤ limit := by
  intro fl hfl w hw
  have h2 : fragLen idCatalog idDict = some 2 := by rfl
  rw [h2] at hfl
  injection hfl with hfl2
  unfold idCatalog at hw
  rcases List.mem_map.1 hw with ⟨i, _, rfl⟩
  have := decChars_length_le 5 (i + 1)
  unfold catEntry
  omega

/-! The failure modes of `doff` (which Rust panics occur, and when). -/

theorem parseMessage_eq_none_iff (catalog : List RStr) (dict : DictMappings) (m : RStr) :
    parseMessage catalog dict m = none ↔ codeMalformed catalog dict m = true := by
  unfold parseMessage codeMalformed
  cases htok : tokenIndices catalog m with
  | nil => simp
  | cons h t =>
    by_cases hb : h ∈ dict.begin
    · simp [hb]
    · by_cases hf : h ∈ dict.fragment
      · cases t with
        | nil => simp [hb, hf]
        | cons s rest =>
          cases hr : dict.reverse_lookup s with
          | none => simp [hb, hf, hr]
          | some idx => simp [hb, hf, hr]
      · simp [hb, hf]

theorem doff_eq_none_iff (catalog : List RStr) (dict : DictMappings) (msgs : List RStr) :
    doff catalog msgs dict = none ↔
      ∃ m ∈ msgs, parseMessage catalog dict m = none := by
  unfold doff parseMessages
  cases hp : mapMo (parseMessage catalog dict) msgs with
  | none =>
    simp only [Option.map_none']
    constructor
    · intro _
      exact (mapMo_eq_none_iff _ _).1 hp
    · intro _
      trivial
  | some ps =>
    simp only [Option.map_some']
    constructor
    · intro hc
      cases hc
    · intro hex
      rw [(mapMo_eq_none_iff _ _).2 hex] at hp
      cases hp

theorem catalogFind_z_none : idCatalog.findIdx? (fun w => w == ['z']) = none := by
  rw [List.findIdx?_eq_none_iff]
  intro w hw
  unfold idCatalog at hw
  rcases List.mem_map.1 hw with ⟨i, _, rfl⟩
  have hne : catEntry i ≠ ['z'] := by
    unfold catEntry
    rw [decChars, if_neg (by omega)]
    intro h
    injection h with h1 h2
    have hlt : (i + 1) % 10 < 10 := Nat.mod_lt _ (by omega)
    have hz : ∀ d < 10, ¬ (Char.ofNat (97 + d) = 'z') := by decide
    exact hz _ hlt h1
  exact beq_eq_false_iff_ne.2 hne

theorem tokenIndices_z : tokenIndices idCatalog ['z'] = [] := by
  unfold tokenIndices
  rw [show splitSp ['z'] = [['z']] from rfl]
  rw [@List.filterMap_cons_none RStr Nat (fun tok => idCatalog.findIdx? (fun w => w == tok))
    (['z']) [] catalogFind_z_none]
  rfl

theorem parseMessage_none_of_tokens_nil (catalog : List RStr) (dict : DictMappings)
    (m : RStr) (h : tokenIndices catalog m = []) :
    parseMessage catalog dict m = none := by
  unfold parseMessage
  rw [h]

theorem specMalformed_false_of_tokens_nil (catalog : List RStr) (dict : DictMappings)
    (m : RStr) (h : tokenIndices catalog m = []) :
    specMalformed catalog dict m = false := by
  unfold specMalformed
  rw [h]

theorem parseMessage_z_none : parseMessage idCatalog idDict ['z'] = none :=
  parseMessage_none_of_tokens_nil idCatalog idDict ['z'] tokenIndices_z

theorem doff_z_none : doff idCatalog [['z']] idDict = none := by
  rw [doff_eq_none_iff]
  exact ⟨['z'], List.mem_cons_self _ _, parseMessage_z_none⟩

theorem specMalformed_z : specMalformed idCatalog idDict ['z'] = false :=
  specMalformed_false_of_tokens_nil idCatalog idDict ['z'] tokenIndices_z

/-! The claims. -/

/-- C1: for every byte sequence of even length, every mapping table built by
the `from_seed` construction, and every character limit large enough to hold
any one word plus the largest fragment marker, decoding the encoder's output
with the same table returns exactly the input:
`doff (don d table limit) table = d` (conditioned on `don` returning, i.e. not
panicking; the random marker draws are arbitrary). -/
theorem don_doff_roundtrip_even (catalog : List RStr) (dict : DictMappings)
    (data : List Nat) (limit rb re : Nat) (rf : Nat → Nat) (msgs : List RStr)
    (hnd : catalog.Nodup) (hsp : ∀ w ∈ catalog, ' ' ∉ w)
    (ht : FromSeedTable catalog dict)
    (hbytes : ∀ b ∈ data, b < 256) (heven : data.length % 2 = 0)
    (hlim : ∀ fl, fragLen catalog dict = some fl → ∀ w ∈ catalog, w.length + fl ≤ limit)
    (hdon : don catalog dict data limit rb re rf = some msgs) :
    doff catalog msgs dict = some data := by
  rw [doff_don catalog dict data limit rb re rf msgs hnd hsp ht hbytes hlim hdon]
  unfold padEven
  rw [if_pos heven]

/-- C1 witness: the 6-byte input `[1, 2, 0, 1, 0, 2]` with `character_limit = 12`
(which splits the transmission into two messages) round-trips through the
identity table. -/
theorem don_doff_roundtrip_even_witness :
    don idCatalog idDict [1, 2, 0, 1, 0, 2] 12 0 0 (fun _ => 0) = some c1msgs ∧
    doff idCatalog c1msgs idDict = some [1, 2, 0, 1, 0, 2] := by
  have hdon : don idCatalog idDict [1, 2, 0, 1, 0, 2] 12 0 0 (fun _ => 0) = some c1msgs := by
    rfl
  exact ⟨hdon,
    don_doff_roundtrip_even idCatalog idDict [1, 2, 0, 1, 0, 2] 12 0 0 (fun _ => 0) c1msgs
      idCatalog_nodup idCatalog_no_space idTable_fst (by decide) (by decide)
      (idCatalog_limit 12 (by omega)) hdon⟩

/-- C2: the claim that every message produced by `don` (including continuation
messages after the fragment marker and sequence word are prepended) has length
at most `character_limit` is FALSE on the code: the split loop reserves only
`fragment_len` characters, not the sequence word and its two separators.  At
the concrete input below (`character_limit = 9`), `don` succeeds and its second
message is 10 characters long. -/
theorem don_message_bound_failing :
    don idCatalog idDict [0, 0, 0, 1, 0, 2] 9 0 0 (fun _ => 0) = some c2msgs ∧
    c2msgs.map List.length = [7, 10] ∧ ¬ (10 ≤ 9) :=
  ⟨rfl, rfl, by omega⟩

/-- C3: the claim that a too-small `character_limit` is rejected up front with
a `LimitTooSmall` error is FALSE on the code: there is no such check (`don`
returns `Vec<String>`, not `Result`).  With `character_limit = 0` the encoder
succeeds and produces three messages, the head message being empty — exactly
the outcome the specification says must be prevented. -/
theorem don_limit_too_small_no_failure :
    don idCatalog idDict [] 0 0 0 (fun _ => 0) = some c3msgs ∧
    c3msgs.length = 3 ∧ c3msgs.head? = some [] :=
  ⟨rfl, rfl, rfl⟩

/-- C4: table construction fails (the Rust slice indexing panics, modelled as
`none`) exactly when the catalog has fewer than `15 + 65536 = 65551` entries,
and succeeds otherwise. -/
theorem from_seed_insufficient_catalog (shuffle : RStr → List Nat) (n : Nat)
    (seed year month day : Nat)
    (hp : (shuffle (seedString seed year month day)).Perm (List.range n)) :
    from_seed shuffle seed year month day = none ↔ n < 65551 := by
  unfold from_seed sliceTable
  have hlen : (shuffle (seedString seed year month day)).length = n := by
    rw [hp.length_eq, List.length_range]
  by_cases h : 15 + 65536 ≤ (shuffle (seedString seed year month day)).length
  · rw [if_pos h]
    constructor
    · intro hc
      cases hc
    · intro hlt
      exact absurd hlt (by omega)
  · rw [if_neg h]
    constructor
    · intro _
      omega
    · intro _
      rfl

/-- C4 witness: with a 65551-entry catalog the construction succeeds; with a
3-entry catalog it fails. -/
theorem from_seed_insufficient_catalog_witness :
    ¬ (from_seed (fun _ => List.range 65551) 69 2021 5 4 = none) ∧
    from_seed (fun _ => List.range 3) 69 2021 5 4 = none := by
  constructor
  · intro hc
    have h := (from_seed_insufficient_catalog (fun _ => List.range 65551) 65551
      69 2021 5 4 (List.Perm.refl _)).1 hc
    omega
  · exact (from_seed_insufficient_catalog (fun _ => List.range 3) 3
      69 2021 5 4 (List.Perm.refl _)).2 (by omega)

/-- C5: for a byte sequence of odd length, decoding the encoder's output
returns the input extended with one trailing zero byte: the zero pad added for
the final odd byte is observable and never stripped on decode. -/
theorem don_doff_roundtrip_odd (catalog : List RStr) (dict : DictMappings)
    (data : List Nat) (limit rb re : Nat) (rf : Nat → Nat) (msgs : List RStr)
    (hnd : catalog.Nodup) (hsp : ∀ w ∈ catalog, ' ' ∉ w)
    (ht : FromSeedTable catalog dict)
    (hbytes : ∀ b ∈ data, b < 256) (hodd : data.length % 2 = 1)
    (hlim : ∀ fl, fragLen catalog dict = some fl → ∀ w ∈ catalog, w.length + fl ≤ limit)
    (hdon : don catalog dict data limit rb re rf = some msgs) :
    doff catalog msgs dict = some (data ++ [0]) := by
  rw [doff_don catalog dict data limit rb re rf msgs hnd hsp ht hbytes hlim hdon]
  unfold padEven
  rw [if_neg (by omega)]

/-- C5 witness: the 3-byte input `[1, 2, 3]` decodes to `[1, 2, 3, 0]`. -/
theorem don_doff_roundtrip_odd_witness :
    don idCatalog idDict [1, 2, 3] 50 0 0 (fun _ => 0) = some c5msgs ∧
    doff idCatalog c5msgs idDict = some [1, 2, 3, 0] := by
  have hdon : don idCatalog idDict [1, 2, 3] 50 0 0 (fun _ => 0) = some c5msgs := by
    rfl
  exact ⟨hdon,
    don_doff_roundtrip_odd idCatalog idDict [1, 2, 3] 50 0 0 (fun _ => 0) c5msgs
      idCatalog_nodup idCatalog_no_space idTable_fst (by decide) (by decide)
      (idCatalog_limit 50 (by omega)) hdon⟩

/-- C6: for every table produced by `from_seed` and every 16-bit value `v`,
`reverse_lookup (table.words[v])` returns `some v` (here `table.words[v]` is
expressed through `get?`, whose success is automatic for `v < 65536` since the
words range has exactly 65536 entries). -/
theorem reverse_lookup_correct (catalog : List RStr) (dict : DictMappings)
    (ht : FromSeedTable catalog dict) (v i : Nat)
    (hv : dict.words.get? v = some i) :
    dict.reverse_lookup i = some v := by
  obtain ⟨-, -, -, hwl, hwnd, -, -, -, -, -, -, -, -, -, -⟩ := fst_spec catalog dict ht
  exact reverse_lookup_of_get? dict v i hwnd (by omega) hv

/-- C6 witness: in the identity table, `words[3] = 18` and
`reverse_lookup 18 = some 3`. -/
theorem reverse_lookup_correct_witness : idDict.reverse_lookup 18 = some 3 :=
  reverse_lookup_correct idCatalog idDict idTable_fst 3 18 (by rfl)

/-- C7: in every table produced by `from_seed`, the begin, end, fragment and
words index ranges are pairwise disjoint, and the words range has exactly
65536 entries with no duplicates. -/
theorem table_ranges_disjoint (catalog : List RStr) (dict : DictMappings)
    (ht : FromSeedTable catalog dict) :
    dict.begin.Disjoint dict.end_ ∧ dict.begin.Disjoint dict.fragment ∧
    dict.begin.Disjoint dict.words ∧ dict.end_.Disjoint dict.fragment ∧
    dict.end_.Disjoint dict.words ∧ dict.fragment.Disjoint dict.words ∧
    dict.words.length = 65536 ∧ dict.words.Nodup := by
  obtain ⟨-, -, -, hwl, hwnd, hdbe, hdbf, hdbw, hdef, hdew, hdfw, -, -, -, -⟩ :=
    fst_spec catalog dict ht
  exact ⟨hdbe, hdbf, hdbw, hdef, hdew, hdfw, hwl, hwnd⟩

/-- C7 witness: the conjunction instantiated at the identity table. -/
theorem table_ranges_disjoint_witness :
    idDict.begin.Disjoint idDict.end_ ∧ idDict.begin.Disjoint idDict.fragment ∧
    idDict.begin.Disjoint idDict.words ∧ idDict.end_.Disjoint idDict.fragment ∧
    idDict.end_.Disjoint idDict.words ∧ idDict.fragment.Disjoint idDict.words ∧
    idDict.words.length = 65536 ∧ idDict.words.Nodup :=
  table_ranges_disjoint idCatalog idDict idTable_fst

/-- C8: for every table and every list of messages that all parse (and whose
embedded sequence numbers are pairwise distinct), `doff` on any permutation of
the list yields the identical decoded byte sequence. -/
theorem doff_order_independent (catalog : List RStr) (dict : DictMappings)
    (msgs msgs' : List RStr) (ps : List (Nat × List Nat))
    (hperm : msgs.Perm msgs')
    (hps : parseMessages catalog dict msgs = some ps)
    (hkeys : (ps.map Prod.fst).Nodup) :
    doff catalog msgs' dict = doff catalog msgs dict := by
  unfold parseMessages at hps
  obtain ⟨ps', hps', hpp⟩ := mapMo_perm (parseMessage catalog dict) hperm hps
  unfold doff parseMessages
  rw [hps, hps', Option.map_some', Option.map_some']
  rw [sortPairs_congr ps ps' hpp hkeys]

/-- C8 witness: a head message and one continuation message decode to the same
bytes in either order. -/
theorem doff_order_independent_witness :
    doff idCatalog [joinSp [catEntry 10, catEntry 16, catEntry 20], joinSp [catEntry 0]]
        idDict
      = doff idCatalog [joinSp [catEntry 0], joinSp [catEntry 10, catEntry 16, catEntry 20]]
        idDict :=
  doff_order_independent idCatalog idDict
    [joinSp [catEntry 0], joinSp [catEntry 10, catEntry 16, catEntry 20]]
    [joinSp [catEntry 10, catEntry 16, catEntry 20], joinSp [catEntry 0]]
    [(0, []), (1, [20])]
    (List.Perm.swap _ _ _) (by rfl) (by decide)

/-- C9 (amended): `doff` fails exactly when some message has no recognized
token at all, or its first recognized token is neither a begin nor a fragment
marker, or a fragment-started message lacks a second recognized token whose
catalog index reverse-looks-up to a sequence number.  (The claim as written
omits the first case.) -/
theorem doff_malformed_iff (catalog : List RStr) (dict : DictMappings)
    (msgs : List RStr) :
    doff catalog msgs dict = none ↔
      ∃ m ∈ msgs, codeMalformed catalog dict m = true := by
  rw [doff_eq_none_iff]
  constructor
  · rintro ⟨m, hm, hpm⟩
    exact ⟨m, hm, (parseMessage_eq_none_iff catalog dict m).1 hpm⟩
  · rintro ⟨m, hm, hc⟩
    exact ⟨m, hm, (parseMessage_eq_none_iff catalog dict m).2 hc⟩

/-- C9 counterexample: on a single message holding one unrecognized token,
`doff` fails (the code panics indexing `v[0]`), yet neither condition of the
claim holds — the claim's "otherwise no MalformedMessage failure occurs"
direction is false. -/
theorem doff_malformed_spec_cex :
    doff idCatalog [['z']] idDict = none ∧
    specMalformed idCatalog idDict ['z'] = false :=
  ⟨doff_z_none, specMalformed_z⟩

/-- C10: the seed strings of month 11, day 1 and month 1, day 11 (same secret
69, same year 2021) are identical — the secret, year, month and day are
concatenated without separators — so `from_seed` produces bit-identical tables
for these two distinct dates, whatever the seeded shuffle is. -/
theorem from_seed_date_collision :
    seedString 69 2021 11 1 = seedString 69 2021 1 11 ∧
    ¬ (((11 : Nat), (1 : Nat)) = ((1 : Nat), (11 : Nat))) ∧
    ∀ shuffle : RStr → List Nat,
      from_seed shuffle 69 2021 11 1 = from_seed shuffle 69 2021 1 11 := by
  refine ⟨by decide, by decide, ?_⟩
  intro shuffle
  unfold from_seed
  rw [show seedString 69 2021 11 1 = seedString 69 2021 1 11 from by decide]

end Caw
